import Mathlib

/-!
Shallow embedding of the BBMASTER repository core
(src/bbmaster/metadata_manager.py and src/bbmaster/utils.py).

Strings model Python strings; Python string comparison is lexicographic on
code points, matching the String order used here.  Fallible Python code
(tuple unpacking of str.split, exceptions) is modelled with Option/Except.
-/

namespace BBMaster

/-- Python str.split with a two-underscore separator, on character lists:
non-overlapping matches scanned left to right, as in CPython. -/
def splitOnUU : List Char → List (List Char)
  | [] => [[]]
  | '_' :: '_' :: rest => [] :: splitOnUU rest
  | c :: rest =>
    match splitOnUU rest with
    | [] => [[c]]
    | x :: xs => (c :: x) :: xs

/-- Model of the Python idiom a, b = s.split(sep) with sep fixed to the
two-underscore separator: succeeds exactly when the split yields two parts. -/
def splitTwo (s : String) : Option (String × String) :=
  match splitOnUU s.data with
  | [a, b] => some (String.mk a, String.mk b)
  | _ => none

/-- Lexicographic comparison of character lists by code point. -/
def charsLt : List Char → List Char → Bool
  | [], [] => false
  | [], _ :: _ => true
  | _ :: _, [] => false
  | c :: cs, d :: ds =>
    if c.toNat < d.toNat then true
    else if d.toNat < c.toNat then false
    else charsLt cs ds

/-- Python string comparison: strict lexicographic order on code points. -/
def pyStrLt (a b : String) : Bool := charsLt a.data b.data

/-- One inner-loop body of BBmeta.get_ps_names_list: given the loop indices
i, j and the two entity names, returns the (possibly empty) contribution to
the result list, or none when the Python code would raise (malformed name).
The conditions mirror the chain of continue statements in the source. -/
def pairStep (tag : String → String) (ty : String) (coadd : Bool)
    (i j : Nat) (m1 m2 : String) : Option (List (String × String)) :=
  if coadd then
    if decide (i > j) then some []
    else if ty == "cross" && i == j then some []
    else if ty == "auto" && i != j then some []
    else some [(m1, m2)]
  else
    match splitTwo m1, splitTwo m2 with
    | some (ms1, sp1), some (ms2, sp2) =>
      if ms1 == ms2 && pyStrLt sp2 sp1 then some []
      else if ty == "cross" && tag ms1 == tag ms2 && sp1 == sp2 then some []
      else if ty == "auto" && !(tag ms1 == tag ms2) && !(sp1 == sp2) then some []
      else some [(m1, m2)]
    | _, _ => none

/-- Inner loop of get_ps_names_list over the enumerated iterable. -/
def psInner (tag : String → String) (ty : String) (coadd : Bool)
    (i : Nat) (m1 : String) : List (Nat × String) → Option (List (String × String))
  | [] => some []
  | (j, m2) :: rest =>
    match pairStep tag ty coadd i j m1 m2, psInner tag ty coadd i m1 rest with
    | some c, some r => some (c ++ r)
    | _, _ => none

/-- Outer loop of get_ps_names_list; the inner loop always runs over the
full enumerated iterable. -/
def psOuter (tag : String → String) (ty : String) (coadd : Bool)
    (full : List (Nat × String)) : List (Nat × String) → Option (List (String × String))
  | [] => some []
  | (i, m1) :: rest =>
    match psInner tag ty coadd i m1 full, psOuter tag ty coadd full rest with
    | some c, some r => some (c ++ r)
    | _, _ => none

/-- BBmeta.get_ps_names_list: iterates over map_sets_list when coadd else
maps_list, with the filter chain of pairStep; tag models the
exp_tag_from_map_set lookup. -/
def get_ps_names_list (mapSetsList mapsList : List String)
    (tag : String → String) (ty : String) (coadd : Bool) :
    Option (List (String × String)) :=
  let it := if coadd then mapSetsList else mapsList
  psOuter tag ty coadd it.enum it.enum

/-- The sanity check in BBmeta.__init__: raise when lmax exceeds
3 nside - 1.  Configuration integers are modelled as Int. -/
def lmaxCheck (nside lmax : Int) : Except String Unit :=
  if lmax > 3 * nside - 1 then
    Except.error "lmax should be lower or equal to 3*nside-1"
  else Except.ok ()

/-- BBmeta._get_map_sets_list over the configured registry, modelled as an
ordered association list of map-set name and split count. -/
def mapSetsList (registry : List (String × Nat)) : List String :=
  registry.map Prod.fst

/-- BBmeta._get_map_list: for every map set in configuration order, one name
per split, splits counted from 0. -/
def mapsList (registry : List (String × Nat)) : List String :=
  registry.flatMap fun ms =>
    (List.range ms.2).map fun idSplit => ms.1 ++ "__" ++ toString idSplit

/-- os.path.join for a relative second component. -/
def pathJoin (a b : String) : String := a ++ "/" ++ b

/-- Python formatting of a nonnegative integer with 04d: decimal digits,
zero padded on the left to width four. -/
def pad4 (n : Nat) : String :=
  let s := toString n
  String.mk (List.replicate (4 - s.length) '0') ++ s

/-- os.makedirs with exist_ok=True over an abstract filesystem state:
the state is the list of existing directories. -/
def makedirs (d : String) (dirs : List String) : List String :=
  if d ∈ dirs then dirs else d :: dirs

/-- BBmeta.get_map_filename: returns the resolved path and the filesystem
state after the call.  fileRoot models file_root_from_map_set. -/
def get_map_filename (simsDirectory mapDirectory : String)
    (fileRoot : String → String) (mapSet : String) (idSplit : Nat)
    (idSim : Option Nat) (dirs : List String) : String × List String :=
  let root := fileRoot mapSet
  match idSim with
  | some s =>
    let pathToMaps := pathJoin simsDirectory (pad4 s)
    (pathJoin pathToMaps (root ++ "_split_" ++ toString idSplit ++ ".fits"),
     makedirs pathToMaps dirs)
  | none =>
    (pathJoin mapDirectory (root ++ "_split_" ++ toString idSplit ++ ".fits"),
     dirs)

/-! Models for src/bbmaster/utils.py. -/

/-- The ordered list of index pairs produced by the nested loops of
PipelineManager.cl_pair_iter: i over range nmaps, j over range from i
to nmaps. -/
def pairList (nmaps : Nat) : List (Nat × Nat) :=
  (List.range nmaps).flatMap fun i =>
    (List.range' i (nmaps - i)).map fun j => (i, j)

/-- PipelineManager.cl_pair_iter: yields (icl, i, j) with icl counting the
yields from 0; the counter equals the position, which List.enum models. -/
def cl_pair_iter (nmaps : Nat) : List (Nat × Nat × Nat) :=
  (pairList nmaps).enum

/-- A four-dimensional numeric array (the binned inverse mode-coupling
operator winv); entries are rationals standing for the numeric values. -/
structure Arr4 where
  d1 : Nat
  d2 : Nat
  d3 : Nat
  d4 : Nat
  entry : Nat → Nat → Nat → Nat → ℚ

/-- numpy ndarray.shape of an Arr4. -/
def Arr4.shape (w : Arr4) : Nat × Nat × Nat × Nat := (w.d1, w.d2, w.d3, w.d4)

/-- The deconvolution step of get_pcls: reshape winv to a square matrix of
side 4 nbpw (row-major), multiply the flattened binned spectrum, reshape the
result back to 4 rows of nbpw entries.  The binned spectrum and the result
are functions of (polarization row, band). -/
def deconv (w : Arr4) (nbpw : Nat) (p : Nat → Nat → ℚ) : Nat → Nat → ℚ :=
  fun a b =>
    ∑ k ∈ Finset.range (4 * nbpw),
      w.entry ((a * nbpw + b) / nbpw) ((a * nbpw + b) % nbpw)
        (k / nbpw) (k % nbpw) * p (k / nbpw) (k % nbpw)

/-- The identity operator on flattened spectra, reshaped to
(4, nbpw, 4, nbpw). -/
def idArr4 (nbpw : Nat) : Arr4 :=
  ⟨4, nbpw, 4, nbpw, fun a b c d => if a * nbpw + b = c * nbpw + d then 1 else 0⟩

/-- The per-pair spectrum stored by get_pcls: the binned coupled spectrum,
deconvolved when winv is given. -/
def finalPcl (winv : Option Arr4) (nbpw : Nat) (p : Nat → Nat → ℚ) :
    Nat → Nat → ℚ :=
  match winv with
  | none => p
  | some w => deconv w nbpw p

/-- One record added by sacc.Sacc.add_ell_cl. -/
structure SaccRecord where
  kind : String
  tracer1 : String
  tracer2 : String
  ells : List ℚ
  cl : List ℚ
deriving DecidableEq

/-- Row a of a spectrum array with nbpw bands, as the stored value list. -/
def matRow (nbpw : Nat) (m : Nat → Nat → ℚ) (a : Nat) : List ℚ :=
  (List.range nbpw).map (m a)

/-- The records added for one enumerated pair (i, j) in the save loop of
get_pcls: cl_ee, cl_eb, then cl_be only when i and j differ, then cl_bb. -/
def pairRecords (names : List String) (leff : List ℚ) (nbpw : Nat)
    (m : Nat → Nat → ℚ) (i j : Nat) : List SaccRecord :=
  [⟨"cl_ee", names.getD i "", names.getD j "", leff, matRow nbpw m 0⟩,
   ⟨"cl_eb", names.getD i "", names.getD j "", leff, matRow nbpw m 1⟩]
  ++ (if i ≠ j then
      [⟨"cl_be", names.getD i "", names.getD j "", leff, matRow nbpw m 2⟩]
     else [])
  ++ [⟨"cl_bb", names.getD i "", names.getD j "", leff, matRow nbpw m 3⟩]

/-- The cls list built by the compute loop of get_pcls, appended in
cl_pair_iter order; binned i j is the binned coupled spectrum of fields
i and j (the composition of the external collaborators). -/
def clsList (winv : Option Arr4) (nbpw nmaps : Nat)
    (binned : Nat → Nat → Nat → Nat → ℚ) : List (Nat → Nat → ℚ) :=
  (cl_pair_iter nmaps).map fun t => finalPcl winv nbpw (binned t.2.1 t.2.2)

/-- All records written by the save loop of get_pcls: for each yielded
(icl, i, j) the records of pair (i, j) built from cls at position icl. -/
def saccRecords (names : List String) (leff : List ℚ) (nbpw : Nat)
    (cls : List (Nat → Nat → ℚ)) (nmaps : Nat) : List SaccRecord :=
  (cl_pair_iter nmaps).flatMap fun t =>
    pairRecords names leff nbpw (cls.getD t.1 (fun _ _ => 0)) t.2.1 t.2.2

/-- The observable effects of one get_pcls call, in program order. -/
inductive PclsEvent where
  | readMap (fname : String)
  | buildField (fname : String)
  | writeArchive (fname : String) (records : List SaccRecord)
deriving DecidableEq

/-- The event trace of a get_pcls run that reaches the save: one map read
and one field construction per input file, then one archive write. -/
def pclsTrace (fnames : List String) (fnameOut : String)
    (recs : List SaccRecord) : List PclsEvent :=
  (fnames.flatMap fun f => [PclsEvent.readMap f, PclsEvent.buildField f])
    ++ [PclsEvent.writeArchive fnameOut recs]

/-- get_pcls of utils.py: when winv is given its shape is checked against
(4, nbpw, 4, nbpw) before anything else; on mismatch the call raises with
no effect.  Otherwise maps are read, fields built, spectra computed per
cl_pair_iter pair, optionally deconvolved, and the sacc archive written. -/
def get_pcls (fnames names : List String) (fnameOut : String) (nbpw : Nat)
    (leff : List ℚ) (binned : Nat → Nat → Nat → Nat → ℚ)
    (winv : Option Arr4) : List PclsEvent × Except String Unit :=
  match winv with
  | some w =>
    if w.shape = (4, nbpw, 4, nbpw) then
      (pclsTrace fnames fnameOut
        (saccRecords names leff nbpw
          (clsList (some w) nbpw fnames.length binned) fnames.length),
       Except.ok ())
    else ([], Except.error "Incompatible binning scheme and binned MCM.")
  | none =>
    (pclsTrace fnames fnameOut
      (saccRecords names leff nbpw
        (clsList none nbpw fnames.length binned) fnames.length),
     Except.ok ())

/-! Helper lemmas. -/

theorem mem_makedirs_self (d : String) (dirs : List String) :
    d ∈ makedirs d dirs := by
  by_cases h : d ∈ dirs <;> simp [makedirs, h]

theorem makedirs_makedirs (d : String) (dirs : List String) :
    makedirs d (makedirs d dirs) = makedirs d dirs := by
  by_cases h : d ∈ dirs <;> simp [makedirs, h]

theorem string_append_inj {A B s t : String} (hl : s.length = t.length)
    (h : A ++ s = B ++ t) : A = B ∧ s = t := by
  have hd : A.data ++ s.data = B.data ++ t.data := by
    simpa [String.data_append] using congrArg String.data h
  obtain ⟨h1, h2⟩ := List.append_inj' hd hl
  exact ⟨String.ext h1, String.ext h2⟩

theorem string_append_ne (A B s t : String) (hl : s.length = t.length)
    (hne : A ≠ B ∨ s ≠ t) : A ++ s ≠ B ++ t := by
  intro h
  obtain ⟨h1, h2⟩ := string_append_inj hl h
  rcases hne with h3 | h3 <;> exact h3 (by assumption)

/-! Theorems for the specification claims. -/

/-- C6: the load-time sanity check of BBmeta raises the configuration error
exactly when lmax exceeds 3 nside - 1; in particular lmax = 3 nside raises
it and lmax = 3 nside - 1 does not. -/
theorem claim_C6 (nside lmax : Int) :
    (lmaxCheck nside lmax =
        Except.error "lmax should be lower or equal to 3*nside-1"
      ↔ lmax > 3 * nside - 1)
    ∧ lmaxCheck nside (3 * nside) =
        Except.error "lmax should be lower or equal to 3*nside-1"
    ∧ lmaxCheck nside (3 * nside - 1) = Except.ok () := by
  refine ⟨?_, ?_, ?_⟩
  · unfold lmaxCheck
    by_cases h : lmax > 3 * nside - 1
    · simp [h]
    · simp [h]
  · unfold lmaxCheck
    rw [if_pos (by omega)]
  · unfold lmaxCheck
    rw [if_neg (by omega)]

/-- C3: get_pcls given a winv whose shape differs from
(4, nbands, 4, nbands) raises the shape error before any other step: the
call returns the error with an empty event trace, so no map read, field
construction or archive write happens and nothing reaches the output
path. -/
theorem claim_C3 (fnames names : List String) (fnameOut : String)
    (nbpw : Nat) (leff : List ℚ) (binned : Nat → Nat → Nat → Nat → ℚ)
    (w : Arr4) (h : w.shape ≠ (4, nbpw, 4, nbpw)) :
    get_pcls fnames names fnameOut nbpw leff binned (some w) =
      ([], Except.error "Incompatible binning scheme and binned MCM.") := by
  simp [get_pcls, h]

/-- Witness for C3 at a concrete shape mismatch (4, 1, 4, 1) against two
bands. -/
theorem claim_C3_witness :
    (Arr4.mk 4 1 4 1 fun _ _ _ _ => 0).shape ≠ (4, 2, 4, 2)
    ∧ get_pcls [] [] "out" 2 [] (fun _ _ _ _ => 0)
        (some (Arr4.mk 4 1 4 1 fun _ _ _ _ => 0)) =
      ([], Except.error "Incompatible binning scheme and binned MCM.") :=
  ⟨by decide, claim_C3 [] [] "out" 2 [] (fun _ _ _ _ => 0) _ (by decide)⟩

/-- C9: get_map_filename at simulation index 7 resolves the path under the
zero-padded 0007 subdirectory of the simulations directory, records that
subdirectory as created, and a repeated call with the same arguments
returns the same path and leaves the filesystem state unchanged. -/
theorem claim_C9 (simsDirectory mapDirectory : String)
    (fileRoot : String → String) (mapSet : String) (idSplit : Nat)
    (dirs : List String) :
    (get_map_filename simsDirectory mapDirectory fileRoot mapSet idSplit
        (some 7) dirs).1 =
      pathJoin (pathJoin simsDirectory "0007")
        (fileRoot mapSet ++ "_split_" ++ toString idSplit ++ ".fits")
    ∧ pathJoin simsDirectory "0007" ∈
        (get_map_filename simsDirectory mapDirectory fileRoot mapSet idSplit
          (some 7) dirs).2
    ∧ get_map_filename simsDirectory mapDirectory fileRoot mapSet idSplit
        (some 7)
        ((get_map_filename simsDirectory mapDirectory fileRoot mapSet idSplit
          (some 7) dirs).2) =
      ((get_map_filename simsDirectory mapDirectory fileRoot mapSet idSplit
          (some 7) dirs).1,
       (get_map_filename simsDirectory mapDirectory fileRoot mapSet idSplit
          (some 7) dirs).2) := by
  refine ⟨rfl, mem_makedirs_self _ _, ?_⟩
  simp [get_map_filename, makedirs_makedirs]

/-- C7: for a registry with map set A of two splits then map set B of three
splits, maps_list is the five names map set and split underscore joined,
in configuration order with splits ascending from 0, all distinct, and
map_sets_list is the configuration-ordered pair of the two map sets. -/
theorem claim_C7 (A B : String) (h : A ≠ B) :
    mapsList [(A, 2), (B, 3)] =
      [A ++ "__" ++ "0", A ++ "__" ++ "1", B ++ "__" ++ "0",
       B ++ "__" ++ "1", B ++ "__" ++ "2"]
    ∧ (mapsList [(A, 2), (B, 3)]).length = 5
    ∧ (mapsList [(A, 2), (B, 3)]).Nodup
    ∧ mapSetsList [(A, 2), (B, 3)] = [A, B] := by
  have e : mapsList [(A, 2), (B, 3)] =
      [A ++ "__" ++ "0", A ++ "__" ++ "1", B ++ "__" ++ "0",
       B ++ "__" ++ "1", B ++ "__" ++ "2"] := rfl
  refine ⟨e, by rw [e]; rfl, ?_, rfl⟩
  rw [e]
  have hAB : A ++ "__" ≠ B ++ "__" := string_append_ne A B "__" "__" rfl (Or.inl h)
  simp only [List.nodup_cons, List.mem_cons, List.not_mem_nil, or_false,
    List.nodup_nil, and_true, not_or]
  refine ⟨⟨?_, ?_, ?_, ?_⟩, ⟨?_, ?_, ?_⟩, ⟨?_, ?_⟩, ?_⟩
  · exact string_append_ne (A ++ "__") (A ++ "__") "0" "1" rfl (Or.inr (by decide))
  · exact string_append_ne (A ++ "__") (B ++ "__") "0" "0" rfl (Or.inl hAB)
  · exact string_append_ne (A ++ "__") (B ++ "__") "0" "1" rfl (Or.inr (by decide))
  · exact string_append_ne (A ++ "__") (B ++ "__") "0" "2" rfl (Or.inr (by decide))
  · exact string_append_ne (A ++ "__") (B ++ "__") "1" "0" rfl (Or.inr (by decide))
  · exact string_append_ne (A ++ "__") (B ++ "__") "1" "1" rfl (Or.inl hAB)
  · exact string_append_ne (A ++ "__") (B ++ "__") "1" "2" rfl (Or.inr (by decide))
  · exact string_append_ne (B ++ "__") (B ++ "__") "0" "1" rfl (Or.inr (by decide))
  · exact string_append_ne (B ++ "__") (B ++ "__") "0" "2" rfl (Or.inr (by decide))
  · exact ⟨string_append_ne (B ++ "__") (B ++ "__") "1" "2" rfl
      (Or.inr (by decide)), not_false⟩

/-- The upper-triangle pair list: the head paired with every element of its
own tail-closed list, then recursively the pairs of the tail. -/
def tailPairs : List String → List (String × String)
  | [] => []
  | x :: xs => (x :: xs).map (fun y => (x, y)) ++ tailPairs xs

theorem pairStep_all_coadd (tag : String → String) (i j : Nat)
    (m1 m2 : String) :
    pairStep tag "all" true i j m1 m2 =
      some (if i ≤ j then [(m1, m2)] else []) := by
  by_cases h : i ≤ j
  · have : ¬ i > j := by omega
    simp [pairStep, this, h]
  · simp [pairStep, Nat.lt_of_not_le h, h]

theorem psInner_all_coadd (tag : String → String) (i : Nat) (m1 : String)
    (l : List String) : ∀ k : Nat,
    psInner tag "all" true i m1 (List.enumFrom k l) =
      some ((l.drop (i - k)).map fun m2 => (m1, m2)) := by
  induction l with
  | nil => intro k; simp [psInner]
  | cons x xs ih =>
    intro k
    simp only [List.enumFrom]
    rw [psInner, pairStep_all_coadd, ih (k + 1)]
    by_cases hik : i ≤ k
    · have h0 : i - k = 0 := by omega
      have h1 : i - (k + 1) = 0 := by omega
      simp [hik, h0, h1]
    · have h2 : i - k = (i - (k + 1)) + 1 := by omega
      have h3 : ¬ i ≤ k := hik
      simp [h3, h2]

theorem psOuter_all_coadd (tag : String → String) (e : List String) :
    ∀ (s : List String) (i : Nat), e.drop i = s →
      psOuter tag "all" true e.enum (List.enumFrom i s) =
        some (tailPairs s) := by
  intro s
  induction s with
  | nil => intro i _; simp [psOuter, tailPairs]
  | cons m1 rest ih =>
    intro i h
    simp only [List.enumFrom]
    rw [psOuter]
    have hinner : psInner tag "all" true i m1 e.enum =
        some ((e.drop (i - 0)).map fun m2 => (m1, m2)) :=
      psInner_all_coadd tag i m1 e 0
    rw [hinner]
    have hdrop : e.drop (i + 1) = rest := by
      rw [← List.drop_drop, h]; rfl
    rw [ih (i + 1) hdrop]
    simp only [Nat.sub_zero, h, tailPairs]

theorem tailPairs_length (e : List String) :
    2 * (tailPairs e).length = e.length * (e.length + 1) := by
  induction e with
  | nil => simp [tailPairs]
  | cons x xs ih =>
    simp only [tailPairs, List.length_append, List.length_map,
      List.length_cons]
    nlinarith [ih]

theorem tailPairs_mem_both {p : String × String} {e : List String}
    (h : p ∈ tailPairs e) : p.1 ∈ e ∧ p.2 ∈ e := by
  induction e with
  | nil => simp [tailPairs] at h
  | cons x xs ih =>
    simp only [tailPairs, List.mem_append, List.mem_map] at h
    rcases h with ⟨y, hy, rfl⟩ | h
    · exact ⟨List.mem_cons_self x xs, hy⟩
    · obtain ⟨h1, h2⟩ := ih h
      exact ⟨List.mem_cons_of_mem x h1, List.mem_cons_of_mem x h2⟩

theorem tailPairs_nodup {e : List String} (h : e.Nodup) :
    (tailPairs e).Nodup := by
  induction e with
  | nil => simp [tailPairs]
  | cons x xs ih =>
    obtain ⟨hx, hxs⟩ := List.nodup_cons.mp h
    refine List.Nodup.append ?_ (ih hxs) ?_
    · exact h.map (fun a b hab => congrArg Prod.snd hab)
    · intro p hp1 hp2
      obtain ⟨y, _, rfl⟩ := List.mem_map.mp hp1
      exact hx (tailPairs_mem_both hp2).1

theorem tailPairs_index {e : List String} :
    ∀ p ∈ tailPairs e, ∃ i j, ∃ (hi : i < e.length) (hj : j < e.length),
      i ≤ j ∧ p = (e.get ⟨i, hi⟩, e.get ⟨j, hj⟩) := by
  induction e with
  | nil => simp [tailPairs]
  | cons x xs ih =>
    intro p hp
    simp only [tailPairs, List.mem_append, List.mem_map] at hp
    rcases hp with ⟨y, hy, rfl⟩ | hp
    · obtain ⟨⟨j, hj⟩, hji⟩ := List.mem_iff_get.mp hy
      exact ⟨0, j, Nat.succ_pos _, hj, Nat.zero_le _, by simp [← hji]⟩
    · obtain ⟨i, j, hi, hj, hij, hpe⟩ := ih p hp
      refine ⟨i + 1, j + 1, Nat.succ_lt_succ hi, Nat.succ_lt_succ hj,
        Nat.succ_le_succ hij, ?_⟩
      simpa using hpe

/-- C4: get_ps_names_list with type all and coadd true over n duplicate-free
map-set identifiers returns exactly n (n + 1) / 2 pairs, without
duplicates, each of the form (entities i, entities j) with i at most j. -/
theorem claim_C4 (entities ml : List String) (tag : String → String)
    (h : entities.Nodup) :
    ∃ L, get_ps_names_list entities ml tag "all" true = some L
      ∧ L.length = entities.length * (entities.length + 1) / 2
      ∧ L.Nodup
      ∧ ∀ p ∈ L, ∃ i j, ∃ (hi : i < entities.length) (hj : j < entities.length),
          i ≤ j ∧ p = (entities.get ⟨i, hi⟩, entities.get ⟨j, hj⟩) := by
  refine ⟨tailPairs entities, ?_, ?_, tailPairs_nodup h, tailPairs_index⟩
  · show psOuter tag "all" true entities.enum entities.enum =
      some (tailPairs entities)
    exact psOuter_all_coadd tag entities entities 0 rfl
  · rw [← tailPairs_length entities, Nat.mul_div_cancel_left _ (by norm_num)]

/-- Witness for C4 on two concrete distinct map sets. -/
theorem claim_C4_witness :
    (["a", "b"] : List String).Nodup
    ∧ ∃ L, get_ps_names_list ["a", "b"] [] (fun _ => "") "all" true = some L
      ∧ L.length = 2 * 3 / 2
      ∧ L.Nodup
      ∧ ∀ p ∈ L, ∃ i j, ∃ (hi : i < (["a", "b"] : List String).length)
          (hj : j < (["a", "b"] : List String).length),
          i ≤ j ∧ p = ((["a", "b"] : List String).get ⟨i, hi⟩,
            (["a", "b"] : List String).get ⟨j, hj⟩) :=
  ⟨by decide, claim_C4 ["a", "b"] [] (fun _ => "") (by decide)⟩

theorem psInner_mem {tag : String → String} {ty : String} {c : Bool}
    {i : Nat} {m1 : String} {lst : List (Nat × String)}
    {L : List (String × String)} {p : String × String}
    (hL : psInner tag ty c i m1 lst = some L) (hp : p ∈ L) :
    ∃ j m2 cl, (j, m2) ∈ lst ∧ pairStep tag ty c i j m1 m2 = some cl
      ∧ p ∈ cl := by
  induction lst generalizing L with
  | nil =>
    simp only [psInner, Option.some.injEq] at hL
    subst hL; simp at hp
  | cons hd rest ih =>
    obtain ⟨j, m2⟩ := hd
    rw [psInner] at hL
    rcases h1 : pairStep tag ty c i j m1 m2 with _ | cl <;> rw [h1] at hL
    · simp at hL
    rcases h2 : psInner tag ty c i m1 rest with _ | r <;> rw [h2] at hL
    · simp at hL
    simp only [Option.some.injEq] at hL
    subst hL
    rcases List.mem_append.mp hp with hc | hr
    · exact ⟨j, m2, cl, List.mem_cons_self _ _, h1, hc⟩
    · obtain ⟨j', m2', cl', hmem, hstep, hpc⟩ := ih h2 hr
      exact ⟨j', m2', cl', List.mem_cons_of_mem _ hmem, hstep, hpc⟩

theorem psOuter_mem {tag : String → String} {ty : String} {c : Bool}
    {full lst : List (Nat × String)} {L : List (String × String)}
    {p : String × String}
    (hL : psOuter tag ty c full lst = some L) (hp : p ∈ L) :
    ∃ i m1 L2, (i, m1) ∈ lst ∧ psInner tag ty c i m1 full = some L2
      ∧ p ∈ L2 := by
  induction lst generalizing L with
  | nil =>
    simp only [psOuter, Option.some.injEq] at hL
    subst hL; simp at hp
  | cons hd rest ih =>
    obtain ⟨i, m1⟩ := hd
    rw [psOuter] at hL
    rcases h1 : psInner tag ty c i m1 full with _ | cl <;> rw [h1] at hL
    · simp at hL
    rcases h2 : psOuter tag ty c full rest with _ | r <;> rw [h2] at hL
    · simp at hL
    simp only [Option.some.injEq] at hL
    subst hL
    rcases List.mem_append.mp hp with hc | hr
    · exact ⟨i, m1, cl, List.mem_cons_self _ _, h1, hc⟩
    · obtain ⟨i', m1', L2', hmem, hinner, hpc⟩ := ih h2 hr
      exact ⟨i', m1', L2', List.mem_cons_of_mem _ hmem, hinner, hpc⟩

theorem pairStep_coadd_mem {tag : String → String} {ty : String}
    {i j : Nat} {m1 m2 : String} {cl : List (String × String)}
    {p : String × String}
    (h : pairStep tag ty true i j m1 m2 = some cl) (hp : p ∈ cl) :
    p = (m1, m2) ∧ i ≤ j ∧ (ty = "cross" → i ≠ j)
      ∧ (ty = "auto" → i = j) := by
  rw [pairStep] at h
  simp only [if_true] at h
  split at h
  · simp only [Option.some.injEq] at h; subst h; simp at hp
  split at h
  · simp only [Option.some.injEq] at h; subst h; simp at hp
  split at h
  · simp only [Option.some.injEq] at h; subst h; simp at hp
  simp only [Option.some.injEq] at h
  subst h
  simp only [List.mem_singleton] at hp
  rename_i h1 h2 h3
  simp only [decide_eq_true_eq, Nat.not_lt] at h1
  refine ⟨hp, by omega, ?_, ?_⟩
  · intro hty hij
    subst hty hij
    simp at h2
  · intro hty
    subst hty
    by_contra hij
    apply h3
    simp [hij]

theorem coadd_mem_names {msl ml : List String} {tag : String → String}
    {ty : String} {p : String × String}
    (hp : p ∈ (get_ps_names_list msl ml tag ty true).getD []) :
    ∃ i j, ∃ (hi : i < msl.length) (hj : j < msl.length),
      p = (msl.get ⟨i, hi⟩, msl.get ⟨j, hj⟩) ∧ i ≤ j
      ∧ (ty = "cross" → i ≠ j) ∧ (ty = "auto" → i = j) := by
  rcases hres : get_ps_names_list msl ml tag ty true with _ | L
  · rw [hres] at hp; simp at hp
  rw [hres] at hp
  simp only [Option.getD_some] at hp
  have houter : psOuter tag ty true msl.enum msl.enum = some L := hres
  obtain ⟨i, m1, L2, hmem1, hinner, hp2⟩ := psOuter_mem houter hp
  obtain ⟨j, m2, cl, hmem2, hstep, hpc⟩ := psInner_mem hinner hp2
  obtain ⟨hpe, hij, hcross, hauto⟩ := pairStep_coadd_mem hstep hpc
  have h1 := List.mem_enum_iff_getElem?.mp hmem1
  have h2 := List.mem_enum_iff_getElem?.mp hmem2
  simp only at h1 h2
  obtain ⟨hi, hm1⟩ := List.getElem?_eq_some.mp h1
  obtain ⟨hj, hm2⟩ := List.getElem?_eq_some.mp h2
  exact ⟨i, j, hi, hj, by simp [hpe, ← hm1, ← hm2], hij, hcross, hauto⟩

/-- C1 counterexample: with coadd false, over the maps of a single map set
with one experiment tag and two splits, the pair of split 0 with split 1
appears in both the auto and the cross enumeration, so the two outputs are
not disjoint as the claim states for every input. -/
theorem claim_C1_counterexample :
    ("A__0", "A__1") ∈
      (get_ps_names_list [] ["A__0", "A__1"] (fun _ => "t") "auto"
        false).getD []
    ∧ ("A__0", "A__1") ∈
      (get_ps_names_list [] ["A__0", "A__1"] (fun _ => "t") "cross"
        false).getD [] := by
  constructor <;> decide

/-- C1 amended: with coadd true and duplicate-free map-set identifiers, the
auto and cross outputs of get_ps_names_list are disjoint (with coadd false
the outputs can share pairs, as the counterexample shows). -/
theorem claim_C1 (msl ml : List String) (tag : String → String)
    (h : msl.Nodup) :
    List.Disjoint ((get_ps_names_list msl ml tag "auto" true).getD [])
      ((get_ps_names_list msl ml tag "cross" true).getD []) := by
  intro p ha hc
  obtain ⟨i, j, hi, hj, hpe, _, _, hauto⟩ := coadd_mem_names ha
  obtain ⟨i', j', hi', hj', hpe', hij', hcross, _⟩ := coadd_mem_names hc
  have heq : i = j := hauto rfl
  have hne : i' ≠ j' := hcross rfl
  subst heq
  have hp12 : p.1 = p.2 := by rw [hpe]
  have h12 : msl.get ⟨i', hi'⟩ = msl.get ⟨j', hj'⟩ := by
    have e1 : p.1 = msl.get ⟨i', hi'⟩ := by rw [hpe']
    have e2 : p.2 = msl.get ⟨j', hj'⟩ := by rw [hpe']
    rw [← e1, ← e2, hp12]
  exact hne (congrArg Fin.val (h.get_inj_iff.mp h12))

/-- Witness for the amended C1 on two concrete distinct map sets with
coadd true. -/
theorem claim_C1_witness :
    (["a", "b"] : List String).Nodup
    ∧ List.Disjoint
        ((get_ps_names_list ["a", "b"] [] (fun _ => "t") "auto" true).getD [])
        ((get_ps_names_list ["a", "b"] [] (fun _ => "t") "cross" true).getD []) :=
  ⟨by decide, claim_C1 ["a", "b"] [] (fun _ => "t") (by decide)⟩

/-- The drop rule of the specification for type all without coadd: keep a
pair unless the two identifiers name the same map set and the split part of
the first is greater than that of the second in string order. -/
def keepAllPair (m1 m2 : String) : Bool :=
  match splitTwo m1, splitTwo m2 with
  | some (a, s1), some (b, s2) => !(a == b && pyStrLt s2 s1)
  | _, _ => true

/-- Reference enumeration following the wording of the specification for
type all and coadd false: all ordered pairs of entities in row-major input
order, filtered by the drop rule alone. -/
def specDropPairs (e : List String) : List (String × String) :=
  (e.flatMap fun m1 => e.map fun m2 => (m1, m2)).filter fun q =>
    keepAllPair q.1 q.2

theorem pairStep_all_noco (tag : String → String) (i j : Nat)
    (m1 m2 : String) (h1 : (splitTwo m1).isSome)
    (h2 : (splitTwo m2).isSome) :
    pairStep tag "all" false i j m1 m2 =
      some (if keepAllPair m1 m2 then [(m1, m2)] else []) := by
  obtain ⟨q1, e1⟩ := Option.isSome_iff_exists.mp h1
  obtain ⟨q2, e2⟩ := Option.isSome_iff_exists.mp h2
  obtain ⟨a, s1⟩ := q1
  obtain ⟨b, s2⟩ := q2
  simp only [pairStep, Bool.false_eq_true, if_false, e1, e2, keepAllPair]
  by_cases hk : (a == b && pyStrLt s2 s1) = true
  · simp [hk]
  · simp [hk]

theorem psInner_all_noco (tag : String → String) (i : Nat) (m1 : String)
    (h1 : (splitTwo m1).isSome) :
    ∀ lst : List (Nat × String), (∀ q ∈ lst, (splitTwo q.2).isSome) →
      psInner tag "all" false i m1 lst =
        some (lst.filterMap fun q =>
          if keepAllPair m1 q.2 then some (m1, q.2) else none) := by
  intro lst
  induction lst with
  | nil => intro _; simp [psInner]
  | cons hd rest ih =>
    intro hwf
    obtain ⟨j, m2⟩ := hd
    rw [psInner,
      pairStep_all_noco tag i j m1 m2 h1 (hwf (j, m2) (List.mem_cons_self _ _)),
      ih fun q hq => hwf q (List.mem_cons_of_mem _ hq)]
    by_cases hk : keepAllPair m1 m2 = true
    · simp [List.filterMap_cons, hk]
    · simp [List.filterMap_cons, hk]

theorem psOuter_all_noco (tag : String → String)
    (full : List (Nat × String))
    (hfull : ∀ q ∈ full, (splitTwo q.2).isSome) :
    ∀ lst : List (Nat × String), (∀ q ∈ lst, (splitTwo q.2).isSome) →
      psOuter tag "all" false full lst =
        some (lst.flatMap fun q1 =>
          full.filterMap fun q2 =>
            if keepAllPair q1.2 q2.2 then some (q1.2, q2.2) else none) := by
  intro lst
  induction lst with
  | nil => intro _; simp [psOuter]
  | cons hd rest ih =>
    intro hwf
    obtain ⟨i, m1⟩ := hd
    rw [psOuter,
      psInner_all_noco tag i m1 (hwf (i, m1) (List.mem_cons_self _ _))
        full hfull,
      ih fun q hq => hwf q (List.mem_cons_of_mem _ hq)]
    simp [List.flatMap_cons]

theorem filterMap_if_filter {α β : Type} (p : α → Bool) (g : α → β)
    (l : List α) :
    l.filterMap (fun x => if p x then some (g x) else none) =
      (l.filter p).map g := by
  induction l with
  | nil => rfl
  | cons x xs ih =>
    by_cases hx : p x = true
    · simp [List.filterMap_cons, List.filter_cons, hx, ih]
    · simp [List.filterMap_cons, List.filter_cons, hx, ih]

theorem filter_flatMap_comm {α β : Type} (l : List α) (f : α → List β)
    (p : β → Bool) :
    (l.flatMap f).filter p = l.flatMap fun a => (f a).filter p := by
  induction l with
  | nil => rfl
  | cons x xs ih => simp [List.flatMap_cons, List.filter_append, ih]

theorem filterMap_enum_snd {α β : Type} (f : α → Option β) (l : List α) :
    (l.enum.filterMap fun q => f q.2) = l.filterMap f := by
  have h : ∀ s : List (Nat × α),
      (s.filterMap fun q => f q.2) = (s.map Prod.snd).filterMap f := by
    intro s
    rw [List.filterMap_map]
    rfl
  rw [h, List.enum_map_snd]

theorem flatMap_enum_snd {α β : Type} (g : α → List β) (l : List α) :
    (l.enum.flatMap fun q => g q.2) = l.flatMap g := by
  have h : ∀ s : List (Nat × α),
      (s.flatMap fun q => g q.2) = (s.map Prod.snd).flatMap g := by
    intro s
    rw [List.flatMap_map]
  rw [h, List.enum_map_snd]

theorem get_ps_all_noco (e msl : List String) (tag : String → String)
    (hwf : ∀ m ∈ e, (splitTwo m).isSome) :
    get_ps_names_list msl e tag "all" false = some (specDropPairs e) := by
  have hwfe : ∀ q ∈ e.enum, (splitTwo q.2).isSome := fun q hq =>
    hwf q.2 (List.snd_mem_of_mem_enum hq)
  show psOuter tag "all" false e.enum e.enum = _
  rw [psOuter_all_noco tag e.enum hwfe e.enum hwfe]
  congr 1
  calc (e.enum.flatMap fun q1 =>
          e.enum.filterMap fun q2 =>
            if keepAllPair q1.2 q2.2 then some (q1.2, q2.2) else none)
      = e.flatMap fun m1 =>
          e.enum.filterMap fun q2 =>
            if keepAllPair m1 q2.2 then some (m1, q2.2) else none :=
        flatMap_enum_snd
          (fun m1 => e.enum.filterMap fun q2 =>
            if keepAllPair m1 q2.2 then some (m1, q2.2) else none) e
    _ = e.flatMap fun m1 =>
          e.filterMap fun m2 =>
            if keepAllPair m1 m2 then some (m1, m2) else none :=
        List.flatMap_congr fun m1 _ => filterMap_enum_snd
          (fun m2 => if keepAllPair m1 m2 then some (m1, m2) else none) e
    _ = e.flatMap fun m1 =>
          (e.map fun m2 => (m1, m2)).filter fun q => keepAllPair q.1 q.2 := by
        refine List.flatMap_congr fun m1 _ => ?_
        rw [List.filter_map, filterMap_if_filter]
        rfl
    _ = specDropPairs e := by
        rw [specDropPairs, filter_flatMap_comm]

/-- C2: for type all without coadd, a same-map-set candidate pair is
dropped exactly when the split string of the first exceeds that of the
second in lexicographic string order: the whole enumeration equals the
row-major product filtered by that rule alone, the two-split example gives
exactly the three stated pairs, and splits of two digits compare as
strings, so the pair of split 2 before split 10 is dropped while the pair
of split 10 before split 2 is kept. -/
theorem claim_C2 :
    (∀ (e msl : List String) (tag : String → String),
      (∀ m ∈ e, (splitTwo m).isSome) →
      get_ps_names_list msl e tag "all" false = some (specDropPairs e))
    ∧ (∀ (msl : List String) (tag : String → String),
        get_ps_names_list msl ["A__0", "A__1"] tag "all" false =
          some [("A__0", "A__0"), ("A__0", "A__1"), ("A__1", "A__1")])
    ∧ (∀ (msl : List String) (tag : String → String),
        get_ps_names_list msl ["A__2", "A__10"] tag "all" false =
          some [("A__2", "A__2"), ("A__10", "A__2"), ("A__10", "A__10")]) :=
  ⟨get_ps_all_noco, fun _ _ => rfl, fun _ _ => rfl⟩

/-- Witness for C2 at a concrete well-formed entity list. -/
theorem claim_C2_witness :
    (∀ m ∈ (["A__0", "A__1"] : List String), (splitTwo m).isSome)
    ∧ get_ps_names_list [] ["A__0", "A__1"] (fun _ => "t") "all" false =
        some (specDropPairs ["A__0", "A__1"]) :=
  ⟨by decide, claim_C2.1 ["A__0", "A__1"] [] (fun _ => "t") (by decide)⟩

theorem list_sum_map_succ (f : Nat → Nat) (l : List Nat) :
    (l.map fun x => f x + 1).sum = (l.map f).sum + l.length := by
  induction l with
  | nil => rfl
  | cons x xs ih => simp [ih]; omega

theorem pairList_length (n : Nat) :
    2 * (pairList n).length = n * (n + 1) := by
  have hlen : ∀ m, (pairList m).length =
      ((List.range m).map fun i => m - i).sum := by
    intro m
    simp only [pairList, List.flatMap, List.length_flatten, List.map_map]
    congr 1
    apply List.map_congr_left
    intro a _
    simp [Function.comp, List.length_map, List.length_range']
  rw [hlen]
  induction n with
  | zero => rfl
  | succ n ih =>
    rw [List.range_succ, List.map_append, List.sum_append]
    have hmc : (List.range n).map (fun i => n + 1 - i) =
        (List.range n).map (fun i => (n - i) + 1) := by
      apply List.map_congr_left
      intro a ha
      have := List.mem_range.mp ha
      omega
    rw [hmc, list_sum_map_succ]
    have hone : ([n].map fun i => n + 1 - i).sum = 1 := by
      simp
    rw [hone]
    have expand : (n + 1) * (n + 1 + 1) = n * (n + 1) + 2 * (n + 1) := by
      ring
    rw [expand, ← ih, List.length_range]
    ring

theorem pairList_mem {n i j : Nat} :
    (i, j) ∈ pairList n ↔ i ≤ j ∧ j < n := by
  simp only [pairList, List.mem_flatMap, List.mem_map, List.mem_range,
    List.mem_range'_1]
  constructor
  · rintro ⟨a, ha, b, ⟨hb1, hb2⟩, heq⟩
    cases heq
    omega
  · rintro ⟨hij, hjn⟩
    exact ⟨i, by omega, j, ⟨hij, by omega⟩, rfl⟩

theorem pairList_pairwise (n : Nat) :
    (pairList n).Pairwise fun p q =>
      p.1 < q.1 ∨ (p.1 = q.1 ∧ p.2 < q.2) := by
  rw [pairList, List.pairwise_flatMap]
  constructor
  · intro a _
    rw [List.pairwise_map]
    exact (List.pairwise_lt_range' a (n - a)).imp fun h => Or.inr ⟨rfl, h⟩
  · refine (List.pairwise_lt_range n).imp ?_
    intro a1 a2 hlt x hx y hy
    obtain ⟨b1, _, rfl⟩ := List.mem_map.mp hx
    obtain ⟨b2, _, rfl⟩ := List.mem_map.mp hy
    exact Or.inl hlt

theorem pairwise_enum_of_pairwise {α : Type} {R : α → α → Prop}
    {l : List α} (h : l.Pairwise R) :
    l.enum.Pairwise fun p q => R p.2 q.2 := by
  apply List.pairwise_map.mp
  rw [List.enum_map_snd]
  exact h

/-- Shared: in get_pcls the entry of cls at position icl of a yielded
triple (icl, i, j) is the final spectrum of the pair (i, j). -/
theorem clsList_getD (winv : Option Arr4) (nbpw n : Nat)
    (binned : Nat → Nat → Nat → Nat → ℚ) (t : Nat × Nat × Nat)
    (ht : t ∈ cl_pair_iter n) :
    (clsList winv nbpw n binned).getD t.1 (fun _ _ => 0) =
      finalPcl winv nbpw (binned t.2.1 t.2.2) := by
  have h := List.mem_enum_iff_getElem?.mp ht
  rw [clsList, List.getD_eq_getElem?_getD, List.getElem?_map, cl_pair_iter,
    List.getElem?_enum, h]
  rfl

/-- C10: cl_pair_iter over n maps yields n (n + 1) / 2 triples, the counter
icl is the position counting from 0, the index pairs are exactly those with
i at most j below n in strictly increasing row-major order, and the
spectrum stored by get_pcls at position icl is the one serialized for the
same (i, j). -/
theorem claim_C10 (n : Nat) :
    (cl_pair_iter n).length = n * (n + 1) / 2
    ∧ (∀ k (hk : k < (cl_pair_iter n).length),
        ((cl_pair_iter n).get ⟨k, hk⟩).1 = k)
    ∧ (∀ icl i j, (icl, i, j) ∈ cl_pair_iter n → i ≤ j ∧ j < n)
    ∧ (∀ i j, i ≤ j → j < n → ∃ icl, (icl, i, j) ∈ cl_pair_iter n)
    ∧ ((cl_pair_iter n).Pairwise fun p q =>
        p.2.1 < q.2.1 ∨ (p.2.1 = q.2.1 ∧ p.2.2 < q.2.2))
    ∧ (∀ (winv : Option Arr4) (nbpw : Nat)
        (binned : Nat → Nat → Nat → Nat → ℚ) (t : Nat × Nat × Nat),
        t ∈ cl_pair_iter n →
        (clsList winv nbpw n binned).getD t.1 (fun _ _ => 0) =
          finalPcl winv nbpw (binned t.2.1 t.2.2)) := by
  refine ⟨?_, ?_, ?_, ?_, ?_, fun winv nbpw binned t ht =>
    clsList_getD winv nbpw n binned t ht⟩
  · rw [cl_pair_iter, List.enum_length, ← pairList_length n,
      Nat.mul_div_cancel_left _ (by norm_num)]
  · intro k hk
    simp [cl_pair_iter, List.get_eq_getElem, List.getElem_enum]
  · intro icl i j hmem
    have h := List.mem_enum_iff_getElem?.mp hmem
    have h2 : (i, j) ∈ pairList n := by
      simp only at h
      exact List.getElem?_mem h
    exact pairList_mem.mp h2
  · intro i j hij hjn
    obtain ⟨icl, hicl⟩ :=
      List.mem_iff_getElem?.mp (pairList_mem.mpr ⟨hij, hjn⟩)
    exact ⟨icl, List.mem_enum_iff_getElem?.mpr hicl⟩
  · exact pairwise_enum_of_pairwise (pairList_pairwise n)

/-- Witness for C10 at a concrete map count. -/
theorem claim_C10_witness :
    ((0 : Nat) ≤ 1 ∧ 1 < 2) ∧ ∃ icl, (icl, 0, 1) ∈ cl_pair_iter 2 :=
  ⟨⟨by decide, by decide⟩, (claim_C10 2).2.2.2.1 0 1 (by decide) (by decide)⟩

theorem deconv_id (nbpw : Nat) (p : Nat → Nat → ℚ) (a b : Nat)
    (ha : a < 4) (hb : b < nbpw) :
    deconv (idArr4 nbpw) nbpw p a b = p a b := by
  have hn : 0 < nbpw := Nat.lt_of_le_of_lt (Nat.zero_le b) hb
  have hr : a * nbpw + b < 4 * nbpw := by
    calc a * nbpw + b < a * nbpw + nbpw := by omega
      _ = (a + 1) * nbpw := by ring
      _ ≤ 4 * nbpw := Nat.mul_le_mul_right _ (by omega)
  rw [deconv]
  have hkey : ∀ k, (idArr4 nbpw).entry ((a * nbpw + b) / nbpw)
      ((a * nbpw + b) % nbpw) (k / nbpw) (k % nbpw)
        * p (k / nbpw) (k % nbpw)
      = if a * nbpw + b = k then p (k / nbpw) (k % nbpw) else 0 := by
    intro k
    simp only [idArr4]
    have e1 : ((a * nbpw + b) / nbpw) * nbpw + (a * nbpw + b) % nbpw
        = a * nbpw + b := by
      rw [Nat.mul_comm]
      exact Nat.div_add_mod _ _
    have e2 : (k / nbpw) * nbpw + k % nbpw = k := by
      rw [Nat.mul_comm]
      exact Nat.div_add_mod _ _
    rw [e1, e2]
    by_cases hk : a * nbpw + b = k
    · simp [hk]
    · simp [hk]
  rw [Finset.sum_congr rfl fun k _ => hkey k, Finset.sum_ite_eq,
    if_pos (Finset.mem_range.mpr hr)]
  have d1 : (a * nbpw + b) / nbpw = a := by
    rw [Nat.mul_comm a nbpw, Nat.mul_add_div hn, Nat.div_eq_of_lt hb]
    rfl
  have d2 : (a * nbpw + b) % nbpw = b := by
    rw [Nat.mul_comm a nbpw, Nat.mul_add_mod, Nat.mod_eq_of_lt hb]
  rw [d1, d2]

/-- C5: with winv the identity operator reshaped to
(4, nbands, 4, nbands), the shape check passes and for every enumerated
pair the deconvolved spectrum stored by get_pcls equals the
pre-deconvolution binned spectrum of that pair at every valid entry. -/
theorem claim_C5 (nbpw nmaps : Nat) (binned : Nat → Nat → Nat → Nat → ℚ)
    (t : Nat × Nat × Nat) (ht : t ∈ cl_pair_iter nmaps) (a b : Nat)
    (ha : a < 4) (hb : b < nbpw) :
    (idArr4 nbpw).shape = (4, nbpw, 4, nbpw)
    ∧ (clsList (some (idArr4 nbpw)) nbpw nmaps binned).getD t.1
        (fun _ _ => 0) a b = binned t.2.1 t.2.2 a b := by
  refine ⟨rfl, ?_⟩
  rw [clsList_getD _ _ _ _ _ ht]
  show deconv (idArr4 nbpw) nbpw (binned t.2.1 t.2.2) a b = _
  exact deconv_id nbpw _ a b ha hb

/-- Witness for C5 at one band, one map, and a constant binned spectrum. -/
theorem claim_C5_witness :
    ((0, 0, 0) ∈ cl_pair_iter 1 ∧ (0 : Nat) < 4 ∧ (0 : Nat) < 1)
    ∧ ((idArr4 1).shape = (4, 1, 4, 1)
      ∧ (clsList (some (idArr4 1)) 1 1 (fun _ _ _ _ => 5)).getD 0
          (fun _ _ => 0) 0 0 = 5) :=
  ⟨⟨by decide, by decide, by decide⟩,
    claim_C5 1 1 (fun _ _ _ _ => 5) (0, 0, 0) (by decide) 0 0 (by decide)
      (by decide)⟩

/-- C8: in the save loop of get_pcls each enumerated pair (i, j)
contributes the cl_ee, cl_eb and cl_bb records always and a cl_be record
exactly when i and j differ, three records for auto pairs and four for
cross pairs, all keyed by the effective multipoles and the entity-name
pair, all present in the written archive, and the archive write is the
last event of the successful call. -/
theorem claim_C8 (fnames names : List String) (fnameOut : String)
    (nbpw : Nat) (leff : List ℚ) (binned : Nat → Nat → Nat → Nat → ℚ)
    (t : Nat × Nat × Nat) (ht : t ∈ cl_pair_iter fnames.length) :
    (pairRecords names leff nbpw
        ((clsList none nbpw fnames.length binned).getD t.1 (fun _ _ => 0))
        t.2.1 t.2.2).map SaccRecord.kind =
      (if t.2.1 = t.2.2 then ["cl_ee", "cl_eb", "cl_bb"]
       else ["cl_ee", "cl_eb", "cl_be", "cl_bb"])
    ∧ (∀ r ∈ pairRecords names leff nbpw
          ((clsList none nbpw fnames.length binned).getD t.1 (fun _ _ => 0))
          t.2.1 t.2.2,
        r.ells = leff ∧ r.tracer1 = names.getD t.2.1 ""
          ∧ r.tracer2 = names.getD t.2.2 "")
    ∧ ((∃ r ∈ pairRecords names leff nbpw
          ((clsList none nbpw fnames.length binned).getD t.1 (fun _ _ => 0))
          t.2.1 t.2.2, r.kind = "cl_be") ↔ t.2.1 ≠ t.2.2)
    ∧ (∀ r ∈ pairRecords names leff nbpw
          ((clsList none nbpw fnames.length binned).getD t.1 (fun _ _ => 0))
          t.2.1 t.2.2,
        r ∈ saccRecords names leff nbpw
          (clsList none nbpw fnames.length binned) fnames.length)
    ∧ (get_pcls fnames names fnameOut nbpw leff binned none).1 =
        pclsTrace fnames fnameOut
          (saccRecords names leff nbpw
            (clsList none nbpw fnames.length binned) fnames.length) := by
  refine ⟨?_, ?_, ?_, fun r hr => List.mem_flatMap.mpr ⟨t, ht, hr⟩, rfl⟩
  · by_cases hij : t.2.1 = t.2.2
    · simp [pairRecords, hij]
    · simp [pairRecords, hij]
  · intro r hr
    by_cases hij : t.2.1 = t.2.2
    · have hcond : ¬(t.2.1 ≠ t.2.2) := by simp [hij]
      simp only [pairRecords] at hr
      rw [if_neg hcond] at hr
      simp only [List.mem_append, List.mem_cons, List.not_mem_nil, or_false,
        false_or] at hr
      rcases hr with (rfl | rfl) | rfl <;> exact ⟨rfl, rfl, rfl⟩
    · simp only [pairRecords] at hr
      rw [if_pos hij] at hr
      simp only [List.mem_append, List.mem_cons, List.not_mem_nil, or_false,
        false_or] at hr
      rcases hr with ((rfl | rfl) | rfl) | rfl <;> exact ⟨rfl, rfl, rfl⟩
  · by_cases hij : t.2.1 = t.2.2
    · simp [pairRecords, hij]
    · constructor
      · intro _
        exact hij
      · intro _
        refine ⟨⟨"cl_be", names.getD t.2.1 "", names.getD t.2.2 "", leff,
          matRow nbpw
            ((clsList none nbpw fnames.length binned).getD t.1
              (fun _ _ => 0)) 2⟩, ?_, rfl⟩
        simp [pairRecords, hij]

/-- Witness for C8 at one input map with one band. -/
theorem claim_C8_witness :
    ((0, 0, 0) ∈ cl_pair_iter (["f"] : List String).length)
    ∧ (pairRecords ["n"] [2] 1
        ((clsList none 1 (["f"] : List String).length
          (fun _ _ _ _ => 3)).getD 0 (fun _ _ => 0)) 0 0).map
        SaccRecord.kind = ["cl_ee", "cl_eb", "cl_bb"] := by
  have h := claim_C8 ["f"] ["n"] "out" 1 [2] (fun _ _ _ _ => 3) (0, 0, 0)
    (by decide)
  exact ⟨by decide, by simpa using h.1⟩

/-- Witness for C7 at the concrete map-set names A and B. -/
theorem claim_C7_witness :
    ("A" : String) ≠ "B"
    ∧ (mapsList [("A", 2), ("B", 3)] =
        ["A" ++ "__" ++ "0", "A" ++ "__" ++ "1", "B" ++ "__" ++ "0",
         "B" ++ "__" ++ "1", "B" ++ "__" ++ "2"]
      ∧ (mapsList [("A", 2), ("B", 3)]).length = 5
      ∧ (mapsList [("A", 2), ("B", 3)]).Nodup
      ∧ mapSetsList [("A", 2), ("B", 3)] = ["A", "B"]) :=
  ⟨by decide, claim_C7 "A" "B" (by decide)⟩

end BBMaster
